import Mathlib

/-!
Verification of the core algorithmic components of the Local-LLM-Benchmark
repository: the RAG memory store (`MemoryManager.js`), the intent/tool
matcher (`AgentRuntime`), and the metrics engine (`BenchmarkManager`).

The JavaScript source is embedded shallowly:

* JS strings become `String`; `text.split(/\s+/)` is embedded by `jsSplitWs`,
  reproducing the JS semantics (a maximal whitespace run is a separator and
  the empty string splits to `[""]`; leading/trailing whitespace contributes
  an empty first/last field).
* JS numbers appearing in comparisons and counting become `ℚ`; the cosine
  similarity value (which involves `Math.sqrt`) becomes `ℝ`.
* JS `Map` (which iterates in insertion order) becomes an association list
  `List (key × value)` with `mapSet` reproducing `Map.prototype.set`.
* `Array.prototype.sort` with a numeric comparator is embedded as a stable
  sort (insertion sort); ECMAScript requires sort stability, and the
  comparators used by the source (`(a, b) => b.similarity - a.similarity`,
  `(a, b) => a - b`) order by the projected key.
* Wall-clock readings (`Date.now()`, `new Date()`) are threaded as explicit
  parameters; logging callbacks and metric side channels, which do not
  affect the data the claims talk about, are elided.
-/

namespace LLMBench

/-- Whitespace as matched by the JS regex `\s` (handled here for the ASCII
range, which is what the repository's data contains). -/
def jsWs (c : Char) : Bool :=
  c = ' ' || c = '\t' || c = '\n' || c = '\r' || c = '\x0b' || c = '\x0c'

/-- Accumulator loop for `jsSplitWs`: `cur` holds the characters of the
current field in reverse, `skipping` records that the scanner is inside a
whitespace run whose field has already been emitted. -/
def splitWsCore : List Char → List Char → Bool → List String
  | [], cur, _ => [String.mk cur.reverse]
  | c :: rest, cur, skipping =>
    if jsWs c then
      if skipping then splitWsCore rest [] true
      else String.mk cur.reverse :: splitWsCore rest [] true
    else
      splitWsCore rest (c :: cur) false

/-- Embedding of the JS expression `text.split(/\s+/)`: maximal whitespace
runs separate the fields, `""` splits to `[""]`, and leading or trailing
whitespace yields an empty first or last field. -/
def jsSplitWs (s : String) : List String :=
  splitWsCore s.toList [] false

/-- Embedding of `s.toLowerCase()` (character-wise ASCII lowercasing; the
repository's tool names, categories and metric names are ASCII). -/
def jsToLower (s : String) : String :=
  String.mk (s.toList.map Char.toLower)

/-- Embedding of `s.toUpperCase()` (character-wise ASCII uppercasing). -/
def jsToUpper (s : String) : String :=
  String.mk (s.toList.map Char.toUpper)

/-- Embedding of `s.trim()`: strip leading and trailing whitespace. -/
def jsTrim (s : String) : String :=
  String.mk (((s.toList.dropWhile jsWs).reverse.dropWhile jsWs).reverse)

/-- Embedding of the JS expression `arr.join(' ')`. -/
def joinSp : List String → String
  | [] => ""
  | [w] => w
  | w :: ws => w ++ " " ++ joinSp ws

/-- The loop of `MemoryManager.splitIntoChunks` (MemoryManager.js lines
184-214), kept at the level of word lists: accumulate words into
`cur` while the running character length (`curLen`, which counts each word
plus one separator character) stays within `chunkSize = 500`; on overflow
close the chunk and seed the next one with the last
`Math.floor(chunkOverlap / 5) = 10` words of the closed chunk. -/
def goW : List String → List String → Nat → List (List String)
  | [], cur, _ => if cur = [] then [] else [cur]
  | w :: rest, cur, curLen =>
    let wl := w.length + 1
    if 500 < curLen + wl ∧ cur ≠ [] then
      let ov := cur.drop (cur.length - 10)
      cur :: goW rest (ov ++ [w]) ((joinSp ov).length + wl)
    else
      goW rest (cur ++ [w]) (curLen + wl)

/-- The word lists of the chunks `MemoryManager.splitIntoChunks` builds for
`text`. -/
def chunksW (text : String) : List (List String) :=
  goW (jsSplitWs text) [] 0

/-- Embedding of `MemoryManager.splitIntoChunks` (the source joins each
chunk with single spaces as it is closed; joining at the end is the same
function of the accumulated word list). -/
def splitIntoChunks (text : String) : List String :=
  (chunksW text).map joinSp

/-- Removes from each chunk after `prev` the words carried over from its
predecessor: the seed of a chunk is the last `min 10 (length prev)` words
of the chunk closed before it. -/
def dropOvAux (prev : List String) : List (List String) → List String
  | [] => []
  | c :: cs => c.drop (min 10 prev.length) ++ dropOvAux c cs

/-- Concatenation of a chunk sequence with every carried-over overlap
removed. -/
def dropOv : List (List String) → List String
  | [] => []
  | c :: cs => c ++ dropOvAux c cs

/-- A word character in the sense of the JS regex `\w` (ASCII). -/
def isWordChar (c : Char) : Bool :=
  c.isAlphanum || c = '_'

/-- Embedding of `MemoryManager.tokenize`: lowercase, replace every
character that is neither `\w` nor `\s` by a space, split on whitespace,
keep only tokens longer than two characters. -/
def tokenize (text : String) : List String :=
  (jsSplitWs (String.mk ((jsToLower text).toList.map
      (fun c => if isWordChar c || jsWs c then c else ' ')))).filter
    (fun w => 2 < w.length)

/-- A token-frequency map: a JS `Map` from word to count, iterated in
insertion order. -/
abbrev FreqMap := List (String × ℚ)

/-- Embedding of `Map.prototype.set k v` on an insertion-ordered map:
overwrite in place if the key is present, otherwise append. -/
def mapSet {κ α : Type} [DecidableEq κ] (m : List (κ × α)) (k : κ) (v : α) :
    List (κ × α) :=
  if m.any (fun p => p.1 = k) then
    m.map (fun p => if p.1 = k then (k, v) else p)
  else
    m ++ [(k, v)]

/-- Embedding of `freq.get(word) || 0`. -/
def getFreq (m : FreqMap) (k : String) : ℚ :=
  match m.find? (fun p => p.1 = k) with
  | some p => p.2
  | none => 0

/-- Embedding of `MemoryManager.calculateWordFrequency`. -/
def calculateWordFrequency (words : List String) : FreqMap :=
  words.foldl (fun freq w => mapSet freq w (getFreq freq w + 1)) []

/-- Deduplication keeping the first occurrence, as JS `new Set(list)`
iterated in insertion order. -/
def dedupFirst : List String → List String
  | [] => []
  | k :: ks => k :: dedupFirst (ks.filter (fun x => x ≠ k))
termination_by l => l.length
decreasing_by
  exact Nat.lt_succ_of_le (List.length_filter_le _ ks)

/-- The key set iterated by `MemoryManager.calculateSimilarity`:
`new Set([...freq1.keys(), ...freq2.keys()])` in insertion order. -/
def simKeys (f1 f2 : FreqMap) : List String :=
  dedupFirst (f1.map Prod.fst ++ f2.map Prod.fst)

/-- The `dotProduct` accumulator of `MemoryManager.calculateSimilarity`:
the single loop over `allWords` accumulates three sums, written here as
three map-sums over the same key list. -/
def simDot (f1 f2 : FreqMap) : ℚ :=
  ((simKeys f1 f2).map fun k => getFreq f1 k * getFreq f2 k).sum

/-- The `magnitude1` accumulator of `MemoryManager.calculateSimilarity`. -/
def simMag1 (f1 f2 : FreqMap) : ℚ :=
  ((simKeys f1 f2).map fun k => getFreq f1 k * getFreq f1 k).sum

/-- The `magnitude2` accumulator of `MemoryManager.calculateSimilarity`. -/
def simMag2 (f1 f2 : FreqMap) : ℚ :=
  ((simKeys f1 f2).map fun k => getFreq f2 k * getFreq f2 k).sum

/-- Embedding of `MemoryManager.calculateSimilarity` (MemoryManager.js
lines 248-276): cosine similarity of two token-frequency vectors, `0` when
either map or either magnitude is zero. The counts and the three
accumulated sums live in `ℚ`; only the final value (through `Math.sqrt`)
lives in `ℝ`. -/
noncomputable def calculateSimilarity (f1 f2 : FreqMap) : ℝ :=
  if f1.length = 0 ∨ f2.length = 0 then 0
  else if simMag1 f1 f2 = 0 ∨ simMag2 f1 f2 = 0 then 0
  else (simDot f1 f2 : ℝ) /
    (Real.sqrt (simMag1 f1 f2 : ℝ) * Real.sqrt (simMag2 f1 f2 : ℝ))

/-- A stored chunk (`processedChunks` entries built by
`MemoryManager.addDocument`; the wall-clock `timestamp` field is elided). -/
structure MMChunk where
  id : String
  docId : Nat
  docName : String
  text : String
  words : List String
  wordFreq : FreqMap
  wordCount : Nat
  index : Nat
deriving DecidableEq

/-- A stored document record (`docInfo` in `MemoryManager.addDocument`;
the wall-clock `addedAt` field is elided). -/
structure DocInfo where
  id : Nat
  name : String
  text : String
  size : Nat
  chunkCount : Nat
deriving DecidableEq

/-- The mutable state of the `MemoryManager` singleton: the insertion-ordered
document map, the flat chunk array, and the id counter. -/
structure MMState where
  documents : List (Nat × DocInfo)
  chunks : List MMChunk
  nextDocId : Nat
deriving DecidableEq

/-- The initial `MemoryManager` state built by the constructor. -/
def MMState.init : MMState :=
  { documents := [], chunks := [], nextDocId := 1 }

/-- One processed chunk of `MemoryManager.addDocument`. -/
def mkChunk (docId : Nat) (name : String) (c : String) (i : Nat) : MMChunk :=
  let ws := tokenize c
  { id := toString docId ++ "_" ++ toString i
    docId := docId
    docName := name
    text := c
    words := ws
    wordFreq := calculateWordFrequency ws
    wordCount := ws.length
    index := i }

/-- Embedding of `MemoryManager.addDocument` (MemoryManager.js lines
26-80): allocate the next id, chunk the text, store document and chunks,
and return the document metadata. The source performs no input
validation and never throws. -/
def addDocument (st : MMState) (name text : String) : DocInfo × MMState :=
  let docId := st.nextDocId
  let cs := splitIntoChunks text
  let processed := cs.enum.map (fun p => mkChunk docId name p.2 p.1)
  let docInfo : DocInfo :=
    { id := docId, name := name, text := text, size := text.length
      chunkCount := cs.length }
  (docInfo,
   { documents := mapSet st.documents docId docInfo
     chunks := st.chunks ++ processed
     nextDocId := docId + 1 })

/-- Embedding of `MemoryManager.deleteDocument` (MemoryManager.js lines
317-337): returns `false` leaving the state untouched when the id is
unknown, otherwise removes the document and all its chunks and returns
`true`. The source never throws. -/
def deleteDocument (st : MMState) (docId : Nat) : Bool × MMState :=
  if st.documents.any (fun p => p.1 = docId) then
    (true,
     { st with
       documents := st.documents.filter (fun p => p.1 ≠ docId)
       chunks := st.chunks.filter (fun c => c.docId ≠ docId) })
  else
    (false, st)

/-- Embedding of `MemoryManager.clearMemory`. -/
def clearMemory (st : MMState) : MMState :=
  { st with documents := [], chunks := [] }

/-- A `searchSimilar` result: a stored chunk together with its score (the
source spreads the chunk fields next to `similarity`). -/
structure SearchResult where
  chunk : MMChunk
  similarity : ℝ

/-- The comparator `(a, b) => b.similarity - a.similarity` of
`MemoryManager.searchSimilar` orders `a` no later than `b` exactly when
this relation holds. -/
def simDescRel (a b : SearchResult) : Prop :=
  b.similarity ≤ a.similarity

noncomputable instance : DecidableRel simDescRel :=
  fun _a _b => Real.decidableLE _ _

noncomputable instance : DecidablePred (fun r : SearchResult => (1 : ℝ) / 10 < r.similarity) :=
  fun _r => Real.decidableLT _ _

/-- Every stored chunk scored against the query's frequency vector
(the `scoredChunks` array of `MemoryManager.searchSimilar`). -/
noncomputable def scoredChunks (st : MMState) (query : String) : List SearchResult :=
  let queryFreq := calculateWordFrequency (tokenize query)
  st.chunks.map (fun c => { chunk := c, similarity := calculateSimilarity queryFreq c.wordFreq })

/-- Embedding of `MemoryManager.searchSimilar` (MemoryManager.js lines
89-126): empty store short-circuits to `[]`; otherwise score all chunks,
stable-sort descending by similarity, take the first `topK`, and keep only
results whose similarity exceeds `0.1`. -/
noncomputable def searchSimilar (st : MMState) (query : String) (topK : Nat) :
    List SearchResult :=
  if st.chunks.length = 0 then []
  else
    ((List.insertionSort simDescRel (scoredChunks st query)).take topK).filter
      (fun r => (1 : ℝ) / 10 < r.similarity)

/-- `pat` occurs at the start of `l`. -/
def startsWith : List Char → List Char → Bool
  | [], _ => true
  | _ :: _, [] => false
  | p :: ps, c :: cs => p = c && startsWith ps cs

/-- `pat` occurs somewhere in `l` (JS `String.prototype.includes`; the
empty pattern always occurs). -/
def occursIn (pat : List Char) : List Char → Bool
  | [] => startsWith pat []
  | c :: cs => startsWith pat (c :: cs) || occursIn pat cs

/-- Embedding of `input.includes(sub)`. -/
def strIncludes (s sub : String) : Bool :=
  occursIn sub.toList s.toList

namespace AgentRuntime

/-- A tool descriptor as consumed (read-only) by `AgentRuntime`; JS fields
that may be absent (`description`, `method`) are embedded with `""`
standing for the missing value, matching the `|| ''` / `|| 'GET'`
defaulting in the source. -/
structure Tool where
  name : String
  description : String
  endpoint : String
  method : String
  headers : String
  variablesSchema : String
  active : Bool
deriving DecidableEq

/-- Stop words dropped by `AgentRuntime.extractKeywords`. -/
def stopWords : List String :=
  ["the", "a", "an", "and", "or", "but", "in", "on", "at", "to", "for", "of", "with", "by"]

/-- Embedding of `AgentRuntime.extractKeywords`: empty text (JS falsy)
gives no keywords; otherwise split on whitespace, keep words longer than
two characters that are not stop words, and lowercase them. -/
def extractKeywords (text : String) : List String :=
  if text = "" then []
  else
    ((jsSplitWs text).filter
        (fun w => 2 < w.length && !(stopWords.contains w))).map jsToLower

/-- Embedding of `AgentRuntime.calculateSimilarity`: the fraction of
keywords occurring as substrings of the input (`0` when there are no
keywords). -/
def calculateSimilarity (input : String) (keywords : List String) : ℚ :=
  if keywords.length = 0 then 0
  else ((keywords.filter (fun kw => strIncludes input kw)).length : ℚ) / (keywords.length : ℚ)

/-- An intent table row (`AgentRuntime.intentKeywords`, iterated by
`Object.entries` in declaration order). -/
structure Intent where
  name : String
  keywords : List String
deriving DecidableEq

/-- The fixed intent table from the `AgentRuntime` constructor. -/
def intentKeywords : List Intent :=
  [⟨"weather", ["weather", "temperature", "forecast", "rain", "sunny", "cloudy"]⟩,
   ⟨"search", ["search", "find", "look up", "google", "query"]⟩,
   ⟨"translate", ["translate", "translation", "language", "convert to"]⟩,
   ⟨"summarize", ["summarize", "summary", "summarise", "brief", "overview"]⟩,
   ⟨"api", ["fetch", "get", "request", "api", "endpoint", "data"]⟩,
   ⟨"news", ["news", "latest", "current", "headlines"]⟩,
   ⟨"time", ["time", "date", "when", "schedule"]⟩,
   ⟨"calc", ["calculate", "compute", "math", "+", "-", "*", "/"]⟩]

/-- Embedding of `AgentRuntime.detectIntent`: the intent with the
strictly largest number of keyword hits (declaration order breaks ties),
`none` when no keyword hits at all. -/
def detectIntent (input : String) : Option Intent :=
  let best := intentKeywords.foldl
    (fun acc it =>
      let hits := (it.keywords.filter (fun kw => strIncludes input kw)).length
      if acc.2 < hits then (some it, hits) else acc)
    ((none : Option Intent), 0)
  if 0 < best.2 then best.1 else none

/-- The description-match loop of `AgentRuntime.findBestMatch` (strategy
2): keep the active tool with the strictly highest keyword score above the
`0.3` threshold. -/
def bestDescMatch (input : String) (tools : List Tool) : Option Tool :=
  (tools.foldl
    (fun acc t =>
      if t.active then
        let score := calculateSimilarity input (extractKeywords (jsToLower t.description))
        if acc.2 < score ∧ (3 / 10 : ℚ) < score then (some t, score) else acc
      else acc)
    ((none : Option Tool), 0)).1

/-- Whether a tool is selected by the name strategy for a (normalized)
input: the tool is active and its lowercased name occurs in the input. -/
def nameMatches (input : String) (t : Tool) : Bool :=
  t.active && strIncludes input (jsToLower t.name)

/-- Embedding of `AgentRuntime.findBestMatch` (lines 1016-1076 of the
agent source): empty tool list gives `none`; otherwise the three
strategies run in order, short-circuiting on the first success — name
match, description match, intent match (first active tool whose
name-plus-description contains one of the intent's keywords). The
`lastInvocations` debug log is elided. -/
def findBestMatch (input : String) (tools : List Tool) : Option Tool :=
  if tools.length = 0 then none
  else
    match tools.find? (nameMatches input) with
    | some t => some t
    | none =>
      match bestDescMatch input tools with
      | some t => some t
      | none =>
        match detectIntent input with
        | some intent =>
          (tools.filter (fun t =>
            t.active &&
              intent.keywords.any (fun kw =>
                strIncludes (jsToLower (t.name ++ " " ++ t.description)) kw))).head?
        | none => none

/-- The tool-selection step of `AgentRuntime.process`: the raw user input
is normalized (`userInput.toLowerCase().trim()`) before `findBestMatch`
runs on it. -/
def matchToolForInput (userInput : String) (tools : List Tool) : Option Tool :=
  findBestMatch (jsTrim (jsToLower userInput)) tools

/-- The outcome of the external `fetch` call performed by
`AgentRuntime.invokeTool`: an HTTP response (any status, 2xx or not), or a
transport-level exception (network error or timeout) carrying a message. -/
inductive FetchOutcome where
  | ok (status : Nat) (body : String)
  | err (msg : String)
deriving DecidableEq

/-- Embedding of `AgentRuntime.formatToolResponse`: 2xx responses become a
labeled result block, non-2xx a labeled error block with the status (the
wall-clock timestamp and JSON pretty-printing of the body are elided). -/
def formatToolResponse (tool : Tool) (body : String) (status : Nat) : String :=
  if 200 ≤ status ∧ status < 300 then
    "**Tool Result: " ++ tool.name ++ "**\n\n" ++ body
  else
    "**Tool Error: " ++ tool.name ++ "**\n\nStatus: " ++ toString status ++ "\n\n" ++ body

/-- Embedding of `AgentRuntime.invokeTool` (lines 1141-1217 of the agent
source), with the `fetch` outcome supplied as a parameter: an HTTP
response of any status is formatted and returned normally; a transport
exception is rethrown to the caller after metric logging (the metric side
channel is elided). -/
def invokeTool (tool : Tool) (outcome : FetchOutcome) : Except String String :=
  match outcome with
  | .ok status body => .ok (formatToolResponse tool body status)
  | .err msg => .error msg

/-- The value `AgentRuntime.process` resolves with. Absent JS fields are
embedded as `none` / `false` (`text: null` in the no-tool branch is
`none`). The `error` field is only ever set in the catch branch. -/
structure ProcessResult where
  text : Option String
  fromTool : Bool
  matchedTool : Option Tool
  error : Bool
  latency : Option Nat
  fromRAG : Bool
  context : List SearchResult

/-- Embedding of `AgentRuntime.process` (lines 881-935 of the agent
source). `st` is the memory store consulted for context, `outcome` the
result of the (external) `fetch` should a tool be invoked, and `elapsed`
the measured wall-clock duration. The source wraps `invokeTool` in
`try`/`catch`: a thrown transport error is converted into a normally
returned chat result flagged `error: true`, so `process` itself always
resolves (never rejects) — hence the result is always `Except.ok`. The
source prefixes the failure text with an emoji glyph, elided here. -/
noncomputable def process (st : MMState) (userInput : String) (tools : List Tool)
    (outcome : FetchOutcome) (elapsed : Nat) : Except String ProcessResult :=
  let contextSnippets := searchSimilar st userInput 3
  match matchToolForInput userInput tools with
  | none =>
    .ok { text := none, fromTool := false, matchedTool := none, error := false
          latency := none, fromRAG := 0 < contextSnippets.length
          context := contextSnippets }
  | some tool =>
    match invokeTool tool outcome with
    | .ok result =>
      .ok { text := some result, fromTool := true, matchedTool := some tool
            error := false, latency := some elapsed
            fromRAG := 0 < contextSnippets.length, context := contextSnippets }
    | .error msg =>
      .ok { text := some ("Tool execution failed: " ++ msg), fromTool := true
            matchedTool := some tool, error := true, latency := some elapsed
            fromRAG := 0 < contextSnippets.length, context := contextSnippets }

end AgentRuntime

namespace BenchmarkManager

/-- A stored metric entry (`BenchmarkManager.logMetric`; the random `id`
field and the free-form `metadata` object are elided, the `Date` timestamp
is its epoch value). -/
structure BMEntry where
  timestamp : Int
  category : String
  name : String
  value : ℚ
deriving DecidableEq

/-- The capacity bound from the `BenchmarkManager` constructor. -/
def maxEntries : Nat := 10000

/-- The entry built by `BenchmarkManager.logMetric`: category uppercased,
name lowercased. -/
def mkBMEntry (ts : Int) (category name : String) (value : ℚ) : BMEntry :=
  { timestamp := ts, category := jsToUpper category, name := jsToLower name, value := value }

/-- Embedding of `BenchmarkManager.logMetric` (lines 31-49 of the metrics
source): append the entry, then `splice(0, length - maxEntries)` away the
oldest excess entries whenever the store exceeds `maxEntries`. -/
def logMetric (st : List BMEntry) (ts : Int) (category name : String) (value : ℚ) :
    List BMEntry :=
  let l := st ++ [mkBMEntry ts category name value]
  if maxEntries < l.length then l.drop (l.length - maxEntries) else l

/-- Embedding of `BenchmarkManager.getCategoryMetrics`: filter by
uppercased category; a supplied time window keeps entries strictly newer
than `now - timeWindow` (a window of `0` is falsy in JS and disables the
filter, as does `null`). -/
def getCategoryMetrics (st : List BMEntry) (now : Int) (category : String)
    (timeWindow : Option Int) : List BMEntry :=
  let filtered := st.filter (fun m => m.category = jsToUpper category)
  match timeWindow with
  | none => filtered
  | some tw =>
    if tw = 0 then filtered
    else filtered.filter (fun m => now - tw < m.timestamp)

/-- The entries `BenchmarkManager.getStatistics` aggregates: the category
filter then the metric-name filter. -/
def matchingEntries (st : List BMEntry) (now : Int) (category metricName : String)
    (timeWindow : Option Int) : List BMEntry :=
  (getCategoryMetrics st now category timeWindow).filter
    (fun m => m.name = jsToLower metricName)

/-- Embedding of `BenchmarkManager.calculateMedian` (lines 136-142 of the
metrics source): sort ascending (`(a, b) => a - b`), then take the middle
element, or the mean of the two middle elements for an even count. (On the
empty list the source reads out-of-range indices and yields `NaN`;
`getStatistics` never calls it on an empty list, and the out-of-range
reads are embedded as default `0`.) -/
def calculateMedian (values : List ℚ) : ℚ :=
  let sorted := List.insertionSort (fun a b : ℚ => a ≤ b) values
  let mid := sorted.length / 2
  if sorted.length % 2 = 0 then (sorted.getD (mid - 1) 0 + sorted.getD mid 0) / 2
  else sorted.getD mid 0

/-- Embedding of `Math.min(...values)` over a nonempty list. -/
def listMin : List ℚ → ℚ
  | [] => 0
  | v :: vs => vs.foldl min v

/-- Embedding of `Math.max(...values)` over a nonempty list. -/
def listMax : List ℚ → ℚ
  | [] => 0
  | v :: vs => vs.foldl max v

/-- The record `BenchmarkManager.getStatistics` returns. The zero-sample
early return carries no `median` key at all, embedded as `median = none`. -/
structure BMStats where
  count : Nat
  average : ℚ
  min : ℚ
  max : ℚ
  latest : ℚ
  trend : ℚ
  median : Option ℚ
deriving DecidableEq

/-- Embedding of `BenchmarkManager.getStatistics` (lines 87-129 of the
metrics source). The `trend` division by a zero first-half mean yields
`Infinity`/`NaN` in JS and `0` in `ℚ`; no claim touches that corner. -/
def getStatistics (st : List BMEntry) (now : Int) (category metricName : String)
    (timeWindow : Option Int) : BMStats :=
  let ms := matchingEntries st now category metricName timeWindow
  if ms.length = 0 then
    { count := 0, average := 0, min := 0, max := 0, latest := 0, trend := 0, median := none }
  else
    let values := ms.map (fun m => m.value)
    let avg := values.sum / (values.length : ℚ)
    let trend :=
      if 10 ≤ values.length then
        let midpoint := values.length / 2
        let firstHalf := values.take midpoint
        let secondHalf := values.drop midpoint
        let firstAvg := firstHalf.sum / (firstHalf.length : ℚ)
        let secondAvg := secondHalf.sum / (secondHalf.length : ℚ)
        ((secondAvg - firstAvg) / firstAvg) * 100
      else 0
    { count := values.length, average := avg, min := listMin values, max := listMax values
      latest := values.getLastD 0, trend := trend, median := some (calculateMedian values) }

/-- Recording a sequence of observations (`logMetric` called once per
tuple) starting from store `st`. -/
def recordAll (entries : List (Int × String × String × ℚ)) (st : List BMEntry) :
    List BMEntry :=
  entries.foldl (fun s e => logMetric s e.1 e.2.1 e.2.2.1 e.2.2.2) st

end BenchmarkManager

/-- The store invariant maintained by every `MemoryManager` operation:
all stored document keys and all chunk owners are ids already handed out
(strictly below `nextDocId`). -/
def MMWF (st : MMState) : Prop :=
  (∀ p ∈ st.documents, p.1 < st.nextDocId) ∧ (∀ c ∈ st.chunks, c.docId < st.nextDocId)

/-- The specification-side order for a stable descending sort of the
scored chunks: strictly larger similarity first, and insertion position
(the index paired with each scored chunk) breaking ties. A list sorted by
this relation is exactly what a stable descending sort by similarity
produces. -/
def simLexRel (a b : Nat × SearchResult) : Prop :=
  b.2.similarity < a.2.similarity ∨ (a.2.similarity = b.2.similarity ∧ a.1 ≤ b.1)

noncomputable instance : DecidableRel simLexRel :=
  fun _a _b => Classical.propDecidable _

instance : IsTotal SearchResult simDescRel :=
  ⟨fun a b => le_total b.similarity a.similarity⟩

instance : IsTrans SearchResult simDescRel :=
  ⟨fun _ _ _ hab hbc => le_trans hbc hab⟩

instance : IsTotal (Nat × SearchResult) simLexRel := by
  constructor
  intro a b
  rcases lt_trichotomy a.2.similarity b.2.similarity with h | h | h
  · exact Or.inr (Or.inl h)
  · rcases Nat.le_total a.1 b.1 with hi | hi
    · exact Or.inl (Or.inr ⟨h, hi⟩)
    · exact Or.inr (Or.inr ⟨h.symm, hi⟩)
  · exact Or.inl (Or.inl h)

instance : IsTrans (Nat × SearchResult) simLexRel := by
  constructor
  rintro a b c (hab | ⟨hab, hia⟩) (hbc | ⟨hbc, hib⟩)
  · exact Or.inl (lt_trans hbc hab)
  · exact Or.inl (hbc ▸ hab)
  · exact Or.inl (hab ▸ hbc)
  · exact Or.inr ⟨hab.trans hbc, le_trans hia hib⟩

/-! ## Theorems -/

/-- One `logMetric` call always leaves the store within the capacity
bound, whatever state it starts from. -/
theorem BenchmarkManager.logMetric_length_le (st : List BMEntry) (ts : Int)
    (c n : String) (v : ℚ) :
    (logMetric st ts c n v).length ≤ maxEntries := by
  unfold logMetric
  by_cases h : maxEntries < (st ++ [mkBMEntry ts c n v]).length
  · simp only [if_pos h, List.length_drop]
    omega
  · simp only [if_neg h]
    omega

/-- One `logMetric` call, as a drop of the appended list: the store keeps
exactly the newest `maxEntries` entries. -/
theorem BenchmarkManager.logMetric_eq_drop (st : List BMEntry) (ts : Int)
    (c n : String) (v : ℚ) :
    logMetric st ts c n v =
      (st ++ [mkBMEntry ts c n v]).drop (st.length + 1 - maxEntries) := by
  unfold logMetric
  by_cases h : maxEntries < (st ++ [mkBMEntry ts c n v]).length
  · simp only [if_pos h]
    have h1 : (st ++ [mkBMEntry ts c n v]).length - maxEntries = st.length + 1 - maxEntries := by
      simp only [List.length_append, List.length_singleton]
    rw [h1]
  · simp only [if_neg h]
    have h0 : st.length + 1 - maxEntries = 0 := by
      simp only [List.length_append, List.length_singleton, not_lt] at h
      omega
    rw [h0, List.drop_zero]

/-- Recording a batch from any under-capacity store keeps exactly the
newest `maxEntries` of the combined sequence. -/
theorem BenchmarkManager.recordAll_eq_drop :
    ∀ (es : List (Int × String × String × ℚ)) (st : List BMEntry),
      st.length ≤ maxEntries →
      recordAll es st =
        (st ++ es.map fun e => mkBMEntry e.1 e.2.1 e.2.2.1 e.2.2.2).drop
          (st.length + es.length - maxEntries)
  | [], st, h => by
    have h0 : st.length + ([] : List (Int × String × String × ℚ)).length - maxEntries = 0 := by
      simp only [List.length_nil]
      omega
    simp only [recordAll, List.foldl_nil, List.map_nil, List.append_nil, h0, List.drop_zero]
  | e :: rest, st, h => by
    have hlen := logMetric_length_le st e.1 e.2.1 e.2.2.1 e.2.2.2
    have hcons :
        recordAll (e :: rest) st = recordAll rest (logMetric st e.1 e.2.1 e.2.2.1 e.2.2.2) :=
      rfl
    rw [hcons, recordAll_eq_drop rest _ hlen, logMetric_eq_drop]
    rw [List.length_drop, ← List.drop_append_of_le_length
        (by simp only [List.length_append, List.length_singleton]; omega),
      List.drop_drop]
    simp only [List.map_cons, List.length_cons, List.length_append, List.length_singleton,
      List.length_nil]
    rw [List.append_cons st (mkBMEntry e.1 e.2.1 e.2.2.1 e.2.2.2)
        (rest.map fun e => mkBMEntry e.1 e.2.1 e.2.2.1 e.2.2.2)]
    have harith :
        st.length + 1 - maxEntries +
            (st.length + 1 - (st.length + 1 - maxEntries) + rest.length - maxEntries) =
          st.length + (rest.length + 1) - maxEntries := by
      omega
    rw [harith]

/-- C4: the metrics store never holds more than `maxEntries` (10,000)
entries after any `logMetric` call, and recording a sequence of
observations into an empty store keeps exactly the newest `maxEntries` of
them — the oldest `N - maxEntries` are the ones evicted. -/
theorem spec_C4_metrics_capacity :
    (∀ (st : List BenchmarkManager.BMEntry) (ts : Int) (c n : String) (v : ℚ),
      (BenchmarkManager.logMetric st ts c n v).length ≤ BenchmarkManager.maxEntries) ∧
    (∀ es : List (Int × String × String × ℚ),
      BenchmarkManager.recordAll es [] =
        (es.map fun e => BenchmarkManager.mkBMEntry e.1 e.2.1 e.2.2.1 e.2.2.2).drop
          (es.length - BenchmarkManager.maxEntries)) := by
  refine ⟨BenchmarkManager.logMetric_length_le, fun es => ?_⟩
  simpa using BenchmarkManager.recordAll_eq_drop es [] (by simp [BenchmarkManager.maxEntries])

/-- C3 counterexample: the claim quantifies over the lowercased input, but
`process` name-matches against the lowercased **trimmed** input. An active
tool named `"tool "` (trailing space) has its lowercased name inside the
lowercased input `"use tool "`, yet the matcher selects nothing, because
trimming removes the trailing space before the substring test. -/
theorem spec_C3_counterexample :
    (⟨"tool ", "", "", "", "", "", true⟩ : AgentRuntime.Tool).active = true ∧
    strIncludes (jsToLower "use tool ")
      (jsToLower (⟨"tool ", "", "", "", "", "", true⟩ : AgentRuntime.Tool).name) = true ∧
    AgentRuntime.matchToolForInput "use tool "
      [(⟨"tool ", "", "", "", "", "", true⟩ : AgentRuntime.Tool)] = none := by
  refine ⟨rfl, by decide, ?_⟩
  show AgentRuntime.findBestMatch "use tool"
      [(⟨"tool ", "", "", "", "", "", true⟩ : AgentRuntime.Tool)] = none
  have h1 : ([(⟨"tool ", "", "", "", "", "", true⟩ : AgentRuntime.Tool)]).find?
        (AgentRuntime.nameMatches "use tool") = none := by decide
  have h2 : AgentRuntime.calculateSimilarity "use tool"
      (AgentRuntime.extractKeywords (jsToLower "")) = 0 := by
    have he : AgentRuntime.extractKeywords (jsToLower "") = [] := by decide
    rw [he]
    rfl
  have h3 : AgentRuntime.bestDescMatch "use tool"
      [(⟨"tool ", "", "", "", "", "", true⟩ : AgentRuntime.Tool)] = none := by
    unfold AgentRuntime.bestDescMatch
    simp only [List.foldl_cons, List.foldl_nil]
    norm_num [h2]
  have h4 : AgentRuntime.detectIntent "use tool" = none := by decide
  unfold AgentRuntime.findBestMatch
  simp only [h1, h3, h4]
  rfl

/-- C3 (amended): whenever some active tool's lowercased name occurs in
the lowercased **and trimmed** input, the matcher selects the first such
tool in the supplied order (the result of the name strategy's `find?`),
never one chosen by the description or intent strategies; the selected
tool is active and name-matched. -/
theorem spec_C3_name_match_priority (userInput : String)
    (tools : List AgentRuntime.Tool) (t : AgentRuntime.Tool)
    (h : tools.find? (AgentRuntime.nameMatches (jsTrim (jsToLower userInput))) = some t) :
    AgentRuntime.matchToolForInput userInput tools = some t ∧
    t.active = true ∧
    strIncludes (jsTrim (jsToLower userInput)) (jsToLower t.name) = true := by
  have hp := List.find?_some h
  have hne : tools ≠ [] := by
    rintro rfl
    simp at h
  have hp' : t.active = true ∧ strIncludes (jsTrim (jsToLower userInput)) (jsToLower t.name) = true := by
    simpa [AgentRuntime.nameMatches, Bool.and_eq_true] using hp
  refine ⟨?_, hp'.1, hp'.2⟩
  unfold AgentRuntime.matchToolForInput AgentRuntime.findBestMatch
  rw [if_neg (by simpa [List.length_eq_zero] using hne), h]

/-- Witness for `spec_C3_name_match_priority`: the input `"run Echo now"`
selects the active tool named `"echo"`. -/
theorem spec_C3_name_match_priority_witness :
    AgentRuntime.matchToolForInput "run Echo now"
      [(⟨"echo", "", "http://x", "GET", "", "", true⟩ : AgentRuntime.Tool)] =
      some (⟨"echo", "", "http://x", "GET", "", "", true⟩ : AgentRuntime.Tool) :=
  (spec_C3_name_match_priority "run Echo now"
    [(⟨"echo", "", "http://x", "GET", "", "", true⟩ : AgentRuntime.Tool)]
    (⟨"echo", "", "http://x", "GET", "", "", true⟩ : AgentRuntime.Tool) (by decide)).1

/-- C7 counterexample: on a transport-level failure, `process` does not
propagate any exception to its caller — it resolves normally (`Except.ok`)
with an error-flagged chat result; there is no `ToolInvocationError` in
the code. -/
theorem spec_C7_counterexample :
    AgentRuntime.process MMState.init "use echo please"
      [(⟨"echo", "", "http://x", "GET", "", "", true⟩ : AgentRuntime.Tool)]
      (.err "network down") 42 =
      .ok { text := some "Tool execution failed: network down", fromTool := true
            matchedTool := some (⟨"echo", "", "http://x", "GET", "", "", true⟩ : AgentRuntime.Tool)
            error := true, latency := some 42, fromRAG := false, context := [] } :=
  rfl

/-- C7 (amended): on a transport-level failure of a matched tool's
invocation, `invokeTool` rethrows the underlying error, and `process`
catches it, resolving normally with a result that is flagged
`error := true` and carries the matched tool, the elapsed time and the
failure message — the failure is surfaced in the returned value, not
raised to the caller. A response with any HTTP status (non-2xx included)
never takes this path: it is formatted and returned un-flagged. -/
theorem spec_C7_transport_failure (st : MMState) (userInput : String)
    (tools : List AgentRuntime.Tool) (t : AgentRuntime.Tool) (msg : String) (elapsed : Nat)
    (hmatch : AgentRuntime.matchToolForInput userInput tools = some t) :
    AgentRuntime.invokeTool t (.err msg) = .error msg ∧
    AgentRuntime.process st userInput tools (.err msg) elapsed =
      .ok { text := some ("Tool execution failed: " ++ msg), fromTool := true
            matchedTool := some t, error := true, latency := some elapsed
            fromRAG := 0 < (searchSimilar st userInput 3).length
            context := searchSimilar st userInput 3 } ∧
    (∀ (status : Nat) (body : String),
      AgentRuntime.invokeTool t (.ok status body) =
        .ok (AgentRuntime.formatToolResponse t body status)) := by
  refine ⟨rfl, ?_, fun _ _ => rfl⟩
  unfold AgentRuntime.process
  rw [hmatch]
  rfl

/-- Witness for `spec_C7_transport_failure` on the empty store with a
name-matched tool. -/
theorem spec_C7_transport_failure_witness :
    AgentRuntime.invokeTool
      (⟨"echo", "", "http://x", "GET", "", "", true⟩ : AgentRuntime.Tool)
      (.err "timeout") = .error "timeout" ∧
    AgentRuntime.process MMState.init "use echo please"
      [(⟨"echo", "", "http://x", "GET", "", "", true⟩ : AgentRuntime.Tool)]
      (.err "timeout") 7 =
      .ok { text := some ("Tool execution failed: " ++ "timeout"), fromTool := true
            matchedTool := some (⟨"echo", "", "http://x", "GET", "", "", true⟩ : AgentRuntime.Tool)
            error := true, latency := some 7
            fromRAG := 0 < (searchSimilar MMState.init "use echo please" 3).length
            context := searchSimilar MMState.init "use echo please" 3 } := by
  have h := spec_C7_transport_failure MMState.init "use echo please"
    [(⟨"echo", "", "http://x", "GET", "", "", true⟩ : AgentRuntime.Tool)]
    (⟨"echo", "", "http://x", "GET", "", "", true⟩ : AgentRuntime.Tool) "timeout" 7 rfl
  exact ⟨h.1, h.2.1⟩

/-- The split loop always yields at least one field. -/
theorem splitWsCore_ne_nil : ∀ (cs : List Char) (cur : List Char) (sk : Bool),
    splitWsCore cs cur sk ≠ []
  | [], _, _ => by simp [splitWsCore]
  | c :: rest, cur, sk => by
    unfold splitWsCore
    by_cases h : jsWs c
    · by_cases hsk : sk
      · simpa [h, hsk] using splitWsCore_ne_nil rest [] true
      · simp [h, hsk]
    · simpa [h] using splitWsCore_ne_nil rest (c :: cur) false

/-- `split(/\s+/)` never returns an empty array (the empty string splits
to `[""]`). -/
theorem jsSplitWs_ne_nil (s : String) : jsSplitWs s ≠ [] :=
  splitWsCore_ne_nil s.toList [] false

/-- The chunking loop yields at least one chunk when it has any input. -/
theorem goW_ne_nil : ∀ (ws cur : List String) (curLen : Nat),
    ws ≠ [] ∨ cur ≠ [] → goW ws cur curLen ≠ []
  | [], cur, _, h => by
    have hcur : cur ≠ [] := h.resolve_left (fun hws => hws rfl)
    simp [goW, hcur]
  | w :: rest, cur, curLen, _ => by
    unfold goW
    by_cases hc : 500 < curLen + (w.length + 1) ∧ cur ≠ []
    · simp [hc]
    · simpa [hc] using
        goW_ne_nil rest (cur ++ [w]) (curLen + (w.length + 1)) (Or.inr (by simp))

/-- `splitIntoChunks` always produces at least one chunk. -/
theorem splitIntoChunks_ne_nil (text : String) : splitIntoChunks text ≠ [] := by
  unfold splitIntoChunks chunksW
  intro h
  exact goW_ne_nil (jsSplitWs text) [] 0 (Or.inl (jsSplitWs_ne_nil text))
    (List.map_eq_nil_iff.mp h)

/-- C5 counterexample: with empty name and empty text, `addDocument`
does not fail with any error — it succeeds, returns document metadata
(with chunk count 1), and records the document in the store. -/
theorem spec_C5_counterexample :
    (addDocument MMState.init "" "").1 =
      { id := 1, name := "", text := "", size := 0, chunkCount := 1 } ∧
    (addDocument MMState.init "" "").2.documents ≠ [] :=
  ⟨by decide, by decide⟩

/-- C5 (amended): `addDocument` performs no input validation and never
fails; for every name and text — empty or not — it succeeds, returning
metadata carrying the allocated id, the name, the text, its size, and the
(always positive) chunk count, and stores the document. -/
theorem spec_C5_addDocument_total (st : MMState) (name text : String) :
    (addDocument st name text).1 =
      { id := st.nextDocId, name := name, text := text, size := text.length,
        chunkCount := (splitIntoChunks text).length } ∧
    0 < (addDocument st name text).1.chunkCount ∧
    (addDocument st name text).2.documents =
      mapSet st.documents st.nextDocId (addDocument st name text).1 :=
  ⟨rfl, List.length_pos.mpr (splitIntoChunks_ne_nil text), rfl⟩

/-- C6 counterexample: deleting an id from the empty store does not fail
with any error — `deleteDocument` returns `false` and leaves the store
unchanged. -/
theorem spec_C6_counterexample :
    deleteDocument MMState.init 1 = (false, MMState.init) := by
  decide

/-- C6 (amended): `deleteDocument` on an unknown id returns `false`
(signalling failure by value, not by raising) and leaves the store
untouched; on a stored id it returns `true` and removes, in the one
returned state, both the document and every chunk owned by it. -/
theorem spec_C6_deleteDocument (st : MMState) (docId : Nat) :
    ((∀ p ∈ st.documents, p.1 ≠ docId) → deleteDocument st docId = (false, st)) ∧
    ((∃ p ∈ st.documents, p.1 = docId) →
      deleteDocument st docId =
        (true,
         { st with
           documents := st.documents.filter (fun p => p.1 ≠ docId)
           chunks := st.chunks.filter (fun c => c.docId ≠ docId) })) := by
  constructor
  · intro h
    have hc : ¬ st.documents.any (fun p => p.1 = docId) = true := by
      simp only [List.any_eq_true, decide_eq_true_eq]
      rintro ⟨p, hp, he⟩
      exact h p hp he
    unfold deleteDocument
    rw [if_neg hc]
  · rintro ⟨p, hp, he⟩
    have hc : st.documents.any (fun p => p.1 = docId) = true := by
      simp only [List.any_eq_true, decide_eq_true_eq]
      exact ⟨p, hp, he⟩
    unfold deleteDocument
    rw [if_pos hc]

/-- Witness for `spec_C6_deleteDocument`: unknown id on the empty store,
and a stored id on a one-document store. -/
theorem spec_C6_deleteDocument_witness :
    deleteDocument MMState.init 5 = (false, MMState.init) ∧
    deleteDocument (addDocument MMState.init "n" "hello").2 1 =
      (true,
       { (addDocument MMState.init "n" "hello").2 with
         documents := (addDocument MMState.init "n" "hello").2.documents.filter
           (fun p => p.1 ≠ 1)
         chunks := (addDocument MMState.init "n" "hello").2.chunks.filter
           (fun c => c.docId ≠ 1) }) :=
  ⟨(spec_C6_deleteDocument MMState.init 5).1 (by decide),
   (spec_C6_deleteDocument _ 1).2 (by decide)⟩

/-- The initial store satisfies the id invariant. -/
theorem MMWF_init : MMWF MMState.init := by
  constructor <;> simp [MMState.init]

/-- `addDocument` preserves the id invariant. -/
theorem MMWF_addDocument (st : MMState) (name text : String) (h : MMWF st) :
    MMWF (addDocument st name text).2 := by
  obtain ⟨hd, hc⟩ := h
  constructor
  · intro p hp
    unfold addDocument mapSet at hp
    simp only at hp
    split at hp
    · rcases List.mem_map.mp hp with ⟨q, hq, rfl⟩
      split
      · simp [addDocument]
      · exact Nat.lt_succ_of_lt (hd q hq)
    · rcases List.mem_append.mp hp with hq | hq
      · exact Nat.lt_succ_of_lt (hd p hq)
      · simp only [List.mem_singleton] at hq
        subst hq
        simp [addDocument]
  · intro c hcm
    unfold addDocument at hcm
    simp only at hcm
    rcases List.mem_append.mp hcm with hq | hq
    · exact Nat.lt_succ_of_lt (hc c hq)
    · rcases List.mem_map.mp hq with ⟨q, _, rfl⟩
      simp [addDocument, mkChunk]

/-- `deleteDocument` preserves the id invariant. -/
theorem MMWF_deleteDocument (st : MMState) (docId : Nat) (h : MMWF st) :
    MMWF (deleteDocument st docId).2 := by
  obtain ⟨hd, hc⟩ := h
  unfold deleteDocument
  split
  · exact ⟨fun p hp => hd p (List.mem_of_mem_filter hp),
      fun c hcm => hc c (List.mem_of_mem_filter hcm)⟩
  · exact ⟨hd, hc⟩

/-- `clearMemory` preserves the id invariant. -/
theorem MMWF_clearMemory (st : MMState) : MMWF (clearMemory st) := by
  constructor <;> simp [clearMemory]

/-- C8: adding a document and then deleting that same document restores
the store's document list and chunk list — in particular the document and
chunk counts — exactly, on every store satisfying the id invariant that
all reachable stores maintain. -/
theorem spec_C8_add_delete_roundtrip (st : MMState) (name text : String)
    (h : MMWF st) :
    (deleteDocument (addDocument st name text).2 (addDocument st name text).1.id).1 = true ∧
    (deleteDocument (addDocument st name text).2 (addDocument st name text).1.id).2.documents
      = st.documents ∧
    (deleteDocument (addDocument st name text).2 (addDocument st name text).1.id).2.chunks
      = st.chunks ∧
    (deleteDocument (addDocument st name text).2
        (addDocument st name text).1.id).2.documents.length = st.documents.length ∧
    (deleteDocument (addDocument st name text).2
        (addDocument st name text).1.id).2.chunks.length = st.chunks.length := by
  obtain ⟨hd, hc⟩ := h
  have hid : (addDocument st name text).1.id = st.nextDocId := rfl
  have hmap : mapSet st.documents st.nextDocId (addDocument st name text).1 =
      st.documents ++ [(st.nextDocId, (addDocument st name text).1)] := by
    unfold mapSet
    rw [if_neg]
    simp only [List.any_eq_true, decide_eq_true_eq]
    rintro ⟨p, hp, he⟩
    exact absurd (he ▸ hd p hp) (lt_irrefl _)
  have hdocs : (addDocument st name text).2.documents =
      st.documents ++ [(st.nextDocId, (addDocument st name text).1)] := hmap
  have hchunks : (addDocument st name text).2.chunks =
      st.chunks ++ (splitIntoChunks text).enum.map
        (fun p => mkChunk st.nextDocId name p.2 p.1) := rfl
  have hany : (addDocument st name text).2.documents.any
      (fun p => p.1 = (addDocument st name text).1.id) = true := by
    rw [hdocs, hid]
    simp
  have hdel : deleteDocument (addDocument st name text).2 (addDocument st name text).1.id =
      (true,
       { (addDocument st name text).2 with
         documents := (addDocument st name text).2.documents.filter
           (fun p => p.1 ≠ (addDocument st name text).1.id)
         chunks := (addDocument st name text).2.chunks.filter
           (fun c => c.docId ≠ (addDocument st name text).1.id) }) := by
    unfold deleteDocument
    rw [if_pos hany]
  rw [hdel]
  have hfd : (addDocument st name text).2.documents.filter
      (fun p => p.1 ≠ (addDocument st name text).1.id) = st.documents := by
    rw [hdocs, hid, List.filter_append]
    have h1 : st.documents.filter (fun p => p.1 ≠ st.nextDocId) = st.documents :=
      List.filter_eq_self.mpr (fun p hp => by
        simpa using Nat.ne_of_lt (hd p hp))
    have h2 : ([(st.nextDocId, (addDocument st name text).1)].filter
        (fun p => p.1 ≠ st.nextDocId) : List (Nat × DocInfo)) = [] := by
      simp
    rw [h1, h2, List.append_nil]
  have hfc : (addDocument st name text).2.chunks.filter
      (fun c => c.docId ≠ (addDocument st name text).1.id) = st.chunks := by
    rw [hchunks, hid, List.filter_append]
    have h1 : st.chunks.filter (fun c => c.docId ≠ st.nextDocId) = st.chunks :=
      List.filter_eq_self.mpr (fun c hcm => by
        simpa using Nat.ne_of_lt (hc c hcm))
    have h2 : ((splitIntoChunks text).enum.map
        (fun p => mkChunk st.nextDocId name p.2 p.1)).filter
          (fun c => c.docId ≠ st.nextDocId) = [] := by
      rw [List.filter_eq_nil_iff]
      intro c hcm
      rcases List.mem_map.mp hcm with ⟨q, _, rfl⟩
      simp [mkChunk]
    rw [h1, h2, List.append_nil]
  exact ⟨rfl, hfd, hfc, by rw [hfd], by rw [hfc]⟩

/-- Witness for `spec_C8_add_delete_roundtrip` at the initial store. -/
theorem spec_C8_add_delete_roundtrip_witness :
    (deleteDocument (addDocument MMState.init "doc" "hello world").2
        (addDocument MMState.init "doc" "hello world").1.id).1 = true ∧
    (deleteDocument (addDocument MMState.init "doc" "hello world").2
        (addDocument MMState.init "doc" "hello world").1.id).2.documents = [] ∧
    (deleteDocument (addDocument MMState.init "doc" "hello world").2
        (addDocument MMState.init "doc" "hello world").1.id).2.chunks = [] := by
  have h := spec_C8_add_delete_roundtrip MMState.init "doc" "hello world" MMWF_init
  exact ⟨h.1, h.2.1, h.2.2.1⟩

/-- The first chunk the loop produces extends the seed `cur` it started
with. -/
theorem goW_head : ∀ (ws cur : List String) (curLen : Nat), cur ≠ [] →
    ∃ ext cs, goW ws cur curLen = (cur ++ ext) :: cs
  | [], cur, curLen, h => ⟨[], [], by simp [goW, h]⟩
  | w :: rest, cur, curLen, h => by
    by_cases hc : 500 < curLen + (w.length + 1) ∧ cur ≠ []
    · refine ⟨[], goW rest (cur.drop (cur.length - 10) ++ [w])
        ((joinSp (cur.drop (cur.length - 10))).length + (w.length + 1)), ?_⟩
      simp [goW, hc]
    · obtain ⟨ext, cs, hrec⟩ := goW_head rest (cur ++ [w]) (curLen + (w.length + 1)) (by simp)
      refine ⟨[w] ++ ext, cs, ?_⟩
      simp only [goW, if_neg hc]
      rw [hrec]
      simp

/-- Loop invariant for reconstruction: dropping each carried-over overlap
from the chunks produced by `goW` and concatenating recovers the seed
followed by the remaining words. -/
theorem goW_reconstruct : ∀ (ws cur : List String) (curLen : Nat), cur ≠ [] →
    dropOv (goW ws cur curLen) = cur ++ ws
  | [], cur, curLen, h => by
    simp [goW, h, dropOv, dropOvAux]
  | w :: rest, cur, curLen, h => by
    by_cases hc : 500 < curLen + (w.length + 1) ∧ cur ≠ []
    · have hcurpos : 0 < cur.length := List.length_pos.mpr h
      have hovlen : (cur.drop (cur.length - 10)).length = min 10 cur.length := by
        rw [List.length_drop]
        omega
      have hovne : cur.drop (cur.length - 10) ≠ [] := by
        intro h0
        rw [h0] at hovlen
        simp only [List.length_nil] at hovlen
        omega
      have hrec := goW_reconstruct rest (cur.drop (cur.length - 10) ++ [w])
        ((joinSp (cur.drop (cur.length - 10))).length + (w.length + 1)) (by simp)
      obtain ⟨ext, cs, hG⟩ := goW_head rest (cur.drop (cur.length - 10) ++ [w])
        ((joinSp (cur.drop (cur.length - 10))).length + (w.length + 1)) (by simp)
      rw [hG] at hrec
      simp only [dropOv] at hrec
      have hext : ext ++ dropOvAux ((cur.drop (cur.length - 10) ++ [w]) ++ ext) cs = rest := by
      
        rw [List.append_assoc (cur.drop (cur.length - 10) ++ [w]) ext] at hrec
        exact List.append_cancel_left hrec
      have hgoW : goW (w :: rest) cur curLen =
          cur :: goW rest (cur.drop (cur.length - 10) ++ [w])
            ((joinSp (cur.drop (cur.length - 10))).length + (w.length + 1)) := by
        simp [goW, hc]
      rw [hgoW, hG]
      simp only [dropOv, dropOvAux]
      refine congrArg (fun l => cur ++ l) ?_
      have hdropped : ((cur.drop (cur.length - 10) ++ [w]) ++ ext).drop (min 10 cur.length) =
          [w] ++ ext := by
        rw [← hovlen, List.append_assoc, List.drop_left]
      rw [hdropped, List.append_assoc, hext]
      rfl
    · have hrec := goW_reconstruct rest (cur ++ [w]) (curLen + (w.length + 1)) (by simp)
      have hgoW : goW (w :: rest) cur curLen = goW rest (cur ++ [w]) (curLen + (w.length + 1)) := by
        simp [goW, hc]
      rw [hgoW, hrec]
      simp

/-- `join(\' \')` on a list with at least two elements prepends the head and
one separator. -/
theorem joinSp_cons_ne (w : String) (ws : List String) (h : ws ≠ []) :
    joinSp (w :: ws) = w ++ " " ++ joinSp ws := by
  cases ws with
  | nil => exact absurd rfl h
  | cons v vs => rfl

/-- Length of a space-join of a concatenation of two nonempty lists. -/
theorem length_joinSp_append (A B : List String) (hA : A ≠ []) (hB : B ≠ []) :
    (joinSp (A ++ B)).length = (joinSp A).length + 1 + (joinSp B).length := by
  induction A with
  | nil => exact absurd rfl hA
  | cons a A' ih =>
    cases A' with
    | nil =>
      rw [List.singleton_append, joinSp_cons_ne a B hB]
      simp [String.length_append, joinSp, show (" " : String).length = 1 from rfl]
    | cons b A'' =>
      have h1 : (joinSp (a :: b :: A'')).length = a.length + 1 + (joinSp (b :: A'')).length := by
        rw [joinSp_cons_ne a (b :: A'') (by simp)]
        simp [String.length_append, show (" " : String).length = 1 from rfl]
      have h2 : (joinSp ((a :: b :: A'') ++ B)).length =
          a.length + 1 + (joinSp ((b :: A'') ++ B)).length := by
        rw [List.cons_append, joinSp_cons_ne a ((b :: A'') ++ B) (by simp)]
        simp [String.length_append, show (" " : String).length = 1 from rfl]
      have h3 := ih (by simp)
      omega

/-- Loop invariant for the length bound: the joined characters of
`cur ++ ws` never exceed the summed chunk lengths, because every closed
chunk re-carries at least one overlap word. -/
theorem goW_length_sum : ∀ (ws cur : List String) (curLen : Nat), cur ≠ [] →
    (joinSp (cur ++ ws)).length ≤ ((goW ws cur curLen).map (fun c => (joinSp c).length)).sum
  | [], cur, _, h => by simp [goW, h]
  | w :: rest, cur, curLen, h => by
    by_cases hc : 500 < curLen + (w.length + 1) ∧ cur ≠ []
    · have hcurpos : 0 < cur.length := List.length_pos.mpr h
      have hovlen : (cur.drop (cur.length - 10)).length = min 10 cur.length := by
        rw [List.length_drop]
        omega
      have hovne : cur.drop (cur.length - 10) ≠ [] := by
        intro h0
        rw [h0] at hovlen
        simp only [List.length_nil] at hovlen
        omega
      have hrec := goW_length_sum rest (cur.drop (cur.length - 10) ++ [w])
        ((joinSp (cur.drop (cur.length - 10))).length + (w.length + 1)) (by simp)
      have hgoW : goW (w :: rest) cur curLen =
          cur :: goW rest (cur.drop (cur.length - 10) ++ [w])
            ((joinSp (cur.drop (cur.length - 10))).length + (w.length + 1)) := by
        simp [goW, hc]
      rw [hgoW]
      simp only [List.map_cons, List.sum_cons]
      have h1 : (joinSp (cur ++ (w :: rest))).length =
          (joinSp cur).length + 1 + (joinSp (w :: rest)).length :=
        length_joinSp_append cur (w :: rest) h (by simp)
      have h2 : (joinSp (cur.drop (cur.length - 10) ++ [w] ++ rest)).length =
          (joinSp (cur.drop (cur.length - 10))).length + 1 + (joinSp (w :: rest)).length := by
        rw [List.append_assoc]
        exact length_joinSp_append (cur.drop (cur.length - 10)) (w :: rest) hovne (by simp)
      rw [h2] at hrec
      omega
    · have hrec := goW_length_sum rest (cur ++ [w]) (curLen + (w.length + 1)) (by simp)
      have hgoW : goW (w :: rest) cur curLen = goW rest (cur ++ [w]) (curLen + (w.length + 1)) := by
        simp [goW, hc]
      rw [hgoW]
      have hl : cur ++ (w :: rest) = (cur ++ [w]) ++ rest := by simp
      rw [hl]
      exact hrec

/-- C2 (amended): for text in canonical whitespace form (equal to its own
word sequence joined by single spaces), the summed chunk lengths are at
least the text length; and for every text whatsoever, concatenating the
chunk word lists with each carried-over overlap removed reconstructs the
original word sequence. -/
theorem spec_C2_chunking (text : String) :
    (joinSp (jsSplitWs text) = text →
      text.length ≤ ((splitIntoChunks text).map String.length).sum) ∧
    dropOv (chunksW text) = jsSplitWs text := by
  have hws := jsSplitWs_ne_nil text
  have hmain : ∀ w rest, jsSplitWs text = w :: rest →
      chunksW text = goW rest [w] (0 + (w.length + 1)) := by
    intro w rest hsplit
    unfold chunksW
    rw [hsplit]
    simp [goW]
  constructor
  · intro hcanon
    rcases hsplit : jsSplitWs text with _ | ⟨w, rest⟩
    · exact absurd hsplit hws
    · have hstep := hmain w rest hsplit
      have hle := goW_length_sum rest [w] (0 + (w.length + 1)) (by simp)
      have hmap : ((splitIntoChunks text).map String.length).sum =
          ((chunksW text).map (fun c => (joinSp c).length)).sum := by
        simp only [splitIntoChunks, List.map_map]
        rfl
      have htext : text.length = (joinSp ([w] ++ rest)).length := by
        rw [← hcanon, hsplit]
        rfl
      rw [hmap, hstep, htext]
      exact hle
  · rcases hsplit : jsSplitWs text with _ | ⟨w, rest⟩
    · exact absurd hsplit hws
    · have hstep := hmain w rest hsplit
      rw [hstep, goW_reconstruct rest [w] _ (by simp)]
      simp

/-- C2 counterexample: the claim fails on text whose whitespace is not
single spaces — `"a  b"` (length 4, two spaces) chunks to `["a b"]` with
summed length 3, because `split(/\s+/)` collapses the run. -/
theorem spec_C2_counterexample :
    ¬ ("a  b".length ≤ ((splitIntoChunks "a  b").map String.length).sum) := by decide

/-- Witness for `spec_C2_chunking` on a canonical two-word text. -/
theorem spec_C2_chunking_witness :
    joinSp (jsSplitWs "hello world") = "hello world" ∧
    "hello world".length ≤ ((splitIntoChunks "hello world").map String.length).sum ∧
    dropOv (chunksW "hello world") = jsSplitWs "hello world" :=
  ⟨by decide, (spec_C2_chunking "hello world").1 (by decide), (spec_C2_chunking "hello world").2⟩

/-- Inductive step of the Cauchy-Schwarz inequality over `ℚ`. -/
theorem cauchy_step (a b S A B : ℚ) (hIH : S ^ 2 ≤ A * B) (hA : 0 ≤ A) (hB : 0 ≤ B) :
    (a * b + S) ^ 2 ≤ (a * a + A) * (b * b + B) := by
  rcases eq_or_lt_of_le hB with hB0 | hBpos
  · have hS0 : S = 0 := by
      have h1 : S ^ 2 ≤ 0 := by nlinarith
      have h2 : S ^ 2 = 0 := le_antisymm h1 (sq_nonneg S)
      exact pow_eq_zero_iff (by norm_num) |>.mp h2
    subst hS0
    rw [← hB0]
    nlinarith [mul_nonneg hA (mul_self_nonneg b), sq_nonneg (a * b)]
  · nlinarith [sq_nonneg (a * B - b * S), mul_nonneg (mul_self_nonneg b) (sub_nonneg.mpr hIH),
      hBpos, hIH]

/-- A sum of self-products is non-negative. -/
theorem sum_mul_self_nonneg (f : String → ℚ) (ks : List String) :
    0 ≤ (ks.map fun k => f k * f k).sum := by
  apply List.sum_nonneg
  intro x hx
  rcases List.mem_map.mp hx with ⟨k, _, rfl⟩
  exact mul_self_nonneg _

/-- Cauchy-Schwarz for sums over a key list in `ℚ`. -/
theorem list_cauchy (f g : String → ℚ) : ∀ ks : List String,
    ((ks.map fun k => f k * g k).sum) ^ 2 ≤
      ((ks.map fun k => f k * f k).sum) * ((ks.map fun k => g k * g k).sum)
  | [] => by simp
  | k :: ks => by
    simp only [List.map_cons, List.sum_cons]
    exact cauchy_step (f k) (g k) _ _ _ (list_cauchy f g ks)
      (sum_mul_self_nonneg f ks) (sum_mul_self_nonneg g ks)

/-- A lookup in a non-negative frequency map is non-negative. -/
theorem getFreq_nonneg (m : FreqMap) (h : ∀ p ∈ m, 0 ≤ p.2) (k : String) :
    0 ≤ getFreq m k := by
  unfold getFreq
  cases hf : m.find? (fun p => p.1 = k) with
  | none => exact le_refl 0
  | some p => exact h p (List.mem_of_find?_eq_some hf)

/-- The dot-product accumulator is non-negative for non-negative maps. -/
theorem simDot_nonneg (f1 f2 : FreqMap) (h1 : ∀ p ∈ f1, 0 ≤ p.2) (h2 : ∀ p ∈ f2, 0 ≤ p.2) :
    0 ≤ simDot f1 f2 := by
  apply List.sum_nonneg
  intro x hx
  rcases List.mem_map.mp hx with ⟨k, _, rfl⟩
  exact mul_nonneg (getFreq_nonneg f1 h1 k) (getFreq_nonneg f2 h2 k)

/-- The first magnitude accumulator is non-negative. -/
theorem simMag1_nonneg (f1 f2 : FreqMap) : 0 ≤ simMag1 f1 f2 :=
  sum_mul_self_nonneg (fun k => getFreq f1 k) (simKeys f1 f2)

/-- The second magnitude accumulator is non-negative. -/
theorem simMag2_nonneg (f1 f2 : FreqMap) : 0 ≤ simMag2 f1 f2 :=
  sum_mul_self_nonneg (fun k => getFreq f2 k) (simKeys f1 f2)

/-- Cauchy-Schwarz for the similarity accumulators. -/
theorem sim_cauchy (f1 f2 : FreqMap) :
    (simDot f1 f2) ^ 2 ≤ simMag1 f1 f2 * simMag2 f1 f2 :=
  list_cauchy (fun k => getFreq f1 k) (fun k => getFreq f2 k) (simKeys f1 f2)

/-- C9: for every pair of token-frequency maps with non-negative counts,
the cosine similarity lies in `[0, 1]`, and equals `0` whenever either
map is empty. -/
theorem spec_C9_cosine_range (f1 f2 : FreqMap)
    (h1 : ∀ p ∈ f1, 0 ≤ p.2) (h2 : ∀ p ∈ f2, 0 ≤ p.2) :
    0 ≤ calculateSimilarity f1 f2 ∧ calculateSimilarity f1 f2 ≤ 1 ∧
    ((f1 = [] ∨ f2 = []) → calculateSimilarity f1 f2 = 0) := by
  unfold calculateSimilarity
  by_cases he : f1.length = 0 ∨ f2.length = 0
  · rw [if_pos he]
    norm_num
  · rw [if_neg he]
    have hempty : (f1 = [] ∨ f2 = []) → False := by
      rintro (rfl | rfl) <;> simp at he
    by_cases hm : simMag1 f1 f2 = 0 ∨ simMag2 f1 f2 = 0
    · rw [if_pos hm]
      exact ⟨le_refl 0, by norm_num, fun h => absurd h hempty⟩
    · rw [if_neg hm]
      push_neg at hm
      have hm1 : 0 < simMag1 f1 f2 := lt_of_le_of_ne (simMag1_nonneg f1 f2) (Ne.symm hm.1)
      have hm2 : 0 < simMag2 f1 f2 := lt_of_le_of_ne (simMag2_nonneg f1 f2) (Ne.symm hm.2)
      have hdot := simDot_nonneg f1 f2 h1 h2
      have hsq1 : (0 : ℝ) < Real.sqrt (simMag1 f1 f2 : ℝ) :=
        Real.sqrt_pos.mpr (by exact_mod_cast hm1)
      have hsq2 : (0 : ℝ) < Real.sqrt (simMag2 f1 f2 : ℝ) :=
        Real.sqrt_pos.mpr (by exact_mod_cast hm2)
      refine ⟨div_nonneg (by exact_mod_cast hdot) (le_of_lt (mul_pos hsq1 hsq2)), ?_,
        fun h => absurd h hempty⟩
      rw [div_le_one (mul_pos hsq1 hsq2)]
      have hprod : Real.sqrt (simMag1 f1 f2 : ℝ) * Real.sqrt (simMag2 f1 f2 : ℝ) =
          Real.sqrt ((simMag1 f1 f2 : ℝ) * (simMag2 f1 f2 : ℝ)) :=
        (Real.sqrt_mul (by exact_mod_cast le_of_lt hm1) _).symm
      rw [hprod]
      rw [Real.le_sqrt (by exact_mod_cast hdot) (by positivity)]
      have := sim_cauchy f1 f2
      exact_mod_cast this

/-- Witness for `spec_C9_cosine_range` on concrete one-word maps and an
empty first map. -/
theorem spec_C9_cosine_range_witness :
    (0 ≤ calculateSimilarity [("abc", 2)] [("abc", 1)] ∧
      calculateSimilarity [("abc", 2)] [("abc", 1)] ≤ 1) ∧
    calculateSimilarity [] [("abc", 1)] = 0 := by
  have h := spec_C9_cosine_range [("abc", 2)] [("abc", 1)]
    (by rintro p hp; rcases List.mem_singleton.mp hp with rfl; norm_num)
    (by rintro p hp; rcases List.mem_singleton.mp hp with rfl; norm_num)
  have h0 := spec_C9_cosine_range [] [("abc", 1)] (by simp)
    (by rintro p hp; rcases List.mem_singleton.mp hp with rfl; norm_num)
  exact ⟨⟨h.1, h.2.1⟩, h0.2.2 (Or.inl rfl)⟩

/-- C10: `getStatistics` carries a `median` field exactly when some stored
entry matches the category, name and time window; when present, the median
is the middle element of the matching values sorted ascending (the mean of
the two middle elements for an even count). The sorted list is
characterized abstractly: any ascending reordering of the matching values
gives the same middle element. -/
theorem spec_C10_statistics_median (st : List BenchmarkManager.BMEntry) (now : Int)
    (cat nm : String) (tw : Option Int) :
    ((BenchmarkManager.getStatistics st now cat nm tw).median.isSome ↔
      BenchmarkManager.matchingEntries st now cat nm tw ≠ []) ∧
    (∀ s : List ℚ,
      s.Perm ((BenchmarkManager.matchingEntries st now cat nm tw).map fun m => m.value) →
      s.Sorted (fun a b : ℚ => a ≤ b) → s ≠ [] →
      (BenchmarkManager.getStatistics st now cat nm tw).median =
        some (if s.length % 2 = 0
              then (s.getD (s.length / 2 - 1) 0 + s.getD (s.length / 2) 0) / 2
              else s.getD (s.length / 2) 0)) := by
  constructor
  · unfold BenchmarkManager.getStatistics
    by_cases h : (BenchmarkManager.matchingEntries st now cat nm tw).length = 0
    · simp [h, List.length_eq_zero.mp h]
    · simp only [if_neg h, Option.isSome_some, true_iff]
      intro h0
      exact h (by simp [h0])
  · intro s hperm hsort hne
    have hmsne : BenchmarkManager.matchingEntries st now cat nm tw ≠ [] := by
      intro h0
      rw [h0] at hperm
      exact hne (List.Perm.eq_nil (by simpa using hperm))
    have hlen : ¬ (BenchmarkManager.matchingEntries st now cat nm tw).length = 0 := by
      simpa [List.length_eq_zero] using hmsne
    have hs : s = List.insertionSort (fun a b : ℚ => a ≤ b)
        ((BenchmarkManager.matchingEntries st now cat nm tw).map fun m => m.value) :=
      List.eq_of_perm_of_sorted
        (hperm.trans (List.perm_insertionSort _ _).symm) hsort
        (List.sorted_insertionSort _ _)
    unfold BenchmarkManager.getStatistics
    rw [if_neg hlen, hs]
    simp only [Option.some.injEq]
    unfold BenchmarkManager.calculateMedian
    rfl

/-- Witness for `spec_C10_statistics_median` at a one-entry store. -/
theorem spec_C10_statistics_median_witness :
    (BenchmarkManager.getStatistics
        [{ timestamp := 0, category := "CHAT", name := "latency", value := 5 }]
        0 "chat" "LATENCY" none).median = some 5 := by
  have h := (spec_C10_statistics_median
      [{ timestamp := 0, category := "CHAT", name := "latency", value := 5 }]
      0 "chat" "LATENCY" none).2 [5] (by decide) (by simp) (by simp)
  simpa using h

/-- Two sorted permutations of each other are equal when the order is
antisymmetric on the elements involved (a local variant of
`List.eq_of_perm_of_sorted` that does not require a global `IsAntisymm`
instance). -/
theorem eq_of_perm_of_sorted_anti {α : Type} {r : α → α → Prop} :
    ∀ {l₁ l₂ : List α}, l₁.Perm l₂ → l₁.Sorted r → l₂.Sorted r →
      (∀ a ∈ l₁, ∀ b ∈ l₁, r a b → r b a → a = b) → l₁ = l₂ := by
  intro l₁
  induction l₁ with
  | nil =>
    intro l₂ hp _ _ _
    exact hp.nil_eq
  | cons a t ih =>
    intro l₂ hp hs₁ hs₂ hanti
    cases l₂ with
    | nil => exact absurd hp (by simp)
    | cons b u =>
      have hab : a = b := by
        have hbmem : b ∈ a :: t := hp.mem_iff.mpr (List.mem_cons_self b u)
        have hamem : a ∈ b :: u := hp.subset (List.mem_cons_self a t)
        rcases List.mem_cons.mp hbmem with h1 | h1
        · exact h1.symm
        rcases List.mem_cons.mp hamem with h2 | h2
        · exact h2
        have hrab : r a b := (List.sorted_cons.mp hs₁).1 b h1
        have hrba : r b a := (List.sorted_cons.mp hs₂).1 a h2
        exact hanti a (List.mem_cons_self a t) b (List.mem_cons.mpr (Or.inr h1)) hrab hrba
      subst hab
      have hpt : t.Perm u := hp.cons_inv
      have ht := ih hpt (List.sorted_cons.mp hs₁).2 (List.sorted_cons.mp hs₂).2
        (fun x hx y hy hxy hyx =>
          hanti x (List.mem_cons.mpr (Or.inr hx)) y (List.mem_cons.mpr (Or.inr hy)) hxy hyx)
      rw [ht]

/-- In an enumerated list the index determines the element. -/
theorem enum_snd_eq {l : List SearchResult} {i : Nat} {x y : SearchResult}
    (hx : (i, x) ∈ l.enum) (hy : (i, y) ∈ l.enum) : x = y := by
  have h1 := List.mem_enum_iff_getElem?.mp hx
  have h2 := List.mem_enum_iff_getElem?.mp hy
  simp only at h1 h2
  rw [h1] at h2
  exact Option.some.injEq _ _ ▸ h2

/-- Lists with at most one element are sorted under any relation. -/
theorem sorted_of_length_le_one {α : Type} {r : α → α → Prop} :
    ∀ {l : List α}, l.length ≤ 1 → l.Sorted r
  | [], _ => List.sorted_nil
  | [x], _ => List.sorted_singleton x
  | _ :: _ :: _, h => by simp at h

/-- Inserting an element whose index is below every index present commutes
with forgetting the indices: on such lists the index-tie-broken order
agrees with the plain similarity order. -/
theorem map_snd_orderedInsert (n : Nat) (x : SearchResult) :
    ∀ (S : List (Nat × SearchResult)), (∀ p ∈ S, n < p.1) →
      (List.orderedInsert simLexRel (n, x) S).map Prod.snd =
        List.orderedInsert simDescRel x (S.map Prod.snd)
  | [], _ => rfl
  | (j, y) :: S', h => by
    have hj : n < j := h (j, y) (List.mem_cons_self _ _)
    by_cases hr : simDescRel x y
    · have hlex : simLexRel (n, x) (j, y) := by
        rcases lt_or_eq_of_le hr with hlt | heq
        · exact Or.inl hlt
        · exact Or.inr ⟨heq.symm, le_of_lt hj⟩
      simp only [List.map_cons]
      rw [List.orderedInsert_of_le _ _ hlex, List.orderedInsert_of_le _ _ hr]
      simp
    · have hlex : ¬ simLexRel (n, x) (j, y) := by
        rintro (hlt | ⟨heq, _⟩)
        · exact hr (le_of_lt hlt)
        · exact hr (le_of_eq heq.symm)
      simp only [List.orderedInsert, if_neg hlex, if_neg hr, List.map_cons]
      rw [map_snd_orderedInsert n x S' (fun p hp => h p (List.mem_cons_of_mem _ hp))]

/-- Stability transport: sorting the enumerated list by the
(similarity, index) lexicographic order and forgetting the indices is the
same as the stable descending sort by similarity that
`Array.prototype.sort` performs. -/
theorem map_snd_insertionSort_enumFrom :
    ∀ (l : List SearchResult) (n : Nat),
      (List.insertionSort simLexRel (l.enumFrom n)).map Prod.snd =
        List.insertionSort simDescRel l
  | [], _ => rfl
  | x :: xs, n => by
    have hmem : ∀ p ∈ List.insertionSort simLexRel (xs.enumFrom (n + 1)), n < p.1 := by
      intro p hp
      have hp' : p ∈ xs.enumFrom (n + 1) := (List.perm_insertionSort _ _).subset hp
      obtain ⟨i, a⟩ := p
      have := (List.mk_mem_enumFrom_iff_le_and_getElem?_sub.mp hp').1
      omega
    have hcons : (x :: xs).enumFrom n = (n, x) :: xs.enumFrom (n + 1) := rfl
    rw [hcons]
    simp only [List.insertionSort]
    rw [map_snd_orderedInsert n x _ hmem, map_snd_insertionSort_enumFrom xs (n + 1)]

/-- C1: `searchSimilar` scores every stored chunk against the query's
token-frequency vector (`scoredChunks`), sorts descending by similarity
with ties kept in stored order — characterized here as: for any `s` that
is a permutation of the indexed scored chunks and is sorted by the
(similarity desc, index asc) lexicographic order, the result equals
taking the first `topK` of `s` and dropping every result with similarity
at most `0.1`; and an empty store returns `[]` (no failure). -/
theorem spec_C1_searchSimilar (st : MMState) (query : String) (topK : Nat) :
    (st.chunks = [] → searchSimilar st query topK = []) ∧
    (∀ s : List (Nat × SearchResult),
      s.Perm (scoredChunks st query).enum →
      s.Sorted simLexRel →
      searchSimilar st query topK =
        ((s.map Prod.snd).take topK).filter (fun r => (1 : ℝ) / 10 < r.similarity)) := by
  constructor
  · intro h
    unfold searchSimilar
    rw [if_pos (by rw [h]; rfl)]
  · intro s hperm hsort
    have hanti : ∀ a ∈ s, ∀ b ∈ s, simLexRel a b → simLexRel b a → a = b := by
      intro a ha b hb hab hba
      have ha' : a ∈ (scoredChunks st query).enum := hperm.subset ha
      have hb' : b ∈ (scoredChunks st query).enum := hperm.subset hb
      rcases hab with h1 | ⟨he1, hi1⟩
      · rcases hba with h2 | ⟨he2, _⟩
        · exact absurd h2 (lt_asymm h1)
        · exact absurd h1 (by rw [he2]; exact lt_irrefl _)
      · rcases hba with h2 | ⟨_, hi2⟩
        · exact absurd h2 (by rw [he1]; exact lt_irrefl _)
        · have hieq : a.1 = b.1 := le_antisymm hi1 hi2
          have ha2 : (a.1, a.2) ∈ (scoredChunks st query).enum := by simpa using ha'
          have hb2 : (b.1, b.2) ∈ (scoredChunks st query).enum := by simpa using hb'
          rw [hieq] at ha2
          exact Prod.ext hieq (enum_snd_eq ha2 hb2)
    have hs : s = List.insertionSort simLexRel (scoredChunks st query).enum :=
      eq_of_perm_of_sorted_anti (hperm.trans (List.perm_insertionSort _ _).symm) hsort
        (List.sorted_insertionSort _ _) hanti
    rw [hs]
    have hmap : (List.insertionSort simLexRel (scoredChunks st query).enum).map Prod.snd =
        List.insertionSort simDescRel (scoredChunks st query) := by
      have he : (scoredChunks st query).enum = (scoredChunks st query).enumFrom 0 := rfl
      rw [he, map_snd_insertionSort_enumFrom]
    rw [hmap]
    unfold searchSimilar
    by_cases hc : st.chunks.length = 0
    · rw [if_pos hc]
      have hnil : st.chunks = [] := List.length_eq_zero.mp hc
      simp [scoredChunks, hnil]
    · rw [if_neg hc]

/-- Witness for `spec_C1_searchSimilar`: the empty store, and a one-chunk
store where the enumerated scored list is trivially sorted. -/
theorem spec_C1_searchSimilar_witness :
    searchSimilar MMState.init "fox" 3 = [] ∧
    searchSimilar (addDocument MMState.init "doc" "some words").2 "fox" 3 =
      (((((scoredChunks (addDocument MMState.init "doc" "some words").2 "fox").enum).map
          Prod.snd).take 3).filter (fun r => (1 : ℝ) / 10 < r.similarity)) := by
  constructor
  · exact (spec_C1_searchSimilar MMState.init "fox" 3).1 rfl
  · refine (spec_C1_searchSimilar _ "fox" 3).2 _ (List.Perm.refl _) ?_
    exact sorted_of_length_le_one (by rfl)

end LLMBench
